import Mathlib

/-
Verification of the avml memory-snapshot tool against its specification.

The definitions below are a shallow embedding of the Rust sources:
  - src/image.rs   (header codec, block copying, zero-block elision)
  - src/iomem.rs   (merge_ranges)
  - src/snapshot.rs (find_kcore_blocks, source-fallback control flow)
  - src/upload/blobstore.rs (calc_concurrency)
Machine integers (u64, usize on 64-bit hosts) are modelled as Nat; wherever
the source uses saturating or checked arithmetic the model spells it out.
Rust Range .. end is a keyword in Lean, so the field is named stop.
-/

def U64MAX : Nat := 2 ^ 64 - 1

/-- Saturating u64 addition, matching Rust u64::saturating_add. -/
def satAdd (a b : Nat) : Nat := min (a + b) U64MAX

/-- Model of core::ops::Range of u64: the half-open interval [start, stop). -/
structure MRange where
  start : Nat
  stop : Nat
deriving DecidableEq, Repr

/-- Membership of an address in a half-open range. -/
def MRange.covers (r : MRange) (x : Nat) : Prop := r.start ≤ x ∧ x < r.stop

instance (r : MRange) (x : Nat) : Decidable (r.covers x) := by
  unfold MRange.covers; infer_instance

/-- An address is covered by a list of ranges when some member covers it. -/
def coversList (l : List MRange) (x : Nat) : Prop := ∃ r ∈ l, r.covers x

instance (l : List MRange) (x : Nat) : Decidable (coversList l x) := by
  unfold coversList; infer_instance

/- ===================== src/image.rs ===================== -/

def MAX_BLOCK_SIZE : Nat := 0x1000 * 0x1000
def PAGE_SIZE : Nat := 0x1000
def LIME_MAGIC : Nat := 0x4c694d45
def AVML_MAGIC : Nat := 0x4c4d5641

/-- The error enum of src/image.rs. -/
inductive ImageError where
  | io (ctx : String)
  | invalidPadding
  | tooLarge
  | unimplementedVersion
  | unsupportedFormat
  | writeBlock (range : MRange)
  | intConversion
deriving DecidableEq, Repr

/-- Header from src/image.rs: a physical range plus the container version. -/
structure Header where
  range : MRange
  version : Nat
deriving DecidableEq, Repr

/-- Block from src/image.rs: source offset plus the physical range. -/
structure Block where
  offset : Nat
  range : MRange
deriving DecidableEq, Repr

/-- Little-endian byte encoding of a u32 value. -/
def u32leBytes (x : Nat) : List Nat :=
  [x % 256, x / 256 % 256, x / 65536 % 256, x / 16777216 % 256]

/-- Little-endian byte encoding of a u64 value. -/
def u64leBytes (x : Nat) : List Nat :=
  [x % 256, x / 256 % 256, x / 65536 % 256, x / 16777216 % 256,
   x / 4294967296 % 256, x / 1099511627776 % 256, x / 281474976710656 % 256,
   x / 72057594037927936 % 256]

/-- Consume four bytes of a stream as a little-endian u32. -/
def readU32 : List Nat → Option (Nat × List Nat)
  | b0 :: b1 :: b2 :: b3 :: rest =>
      some (b0 + 256 * b1 + 65536 * b2 + 16777216 * b3, rest)
  | _ => none

/-- Consume eight bytes of a stream as a little-endian u64. -/
def readU64 : List Nat → Option (Nat × List Nat)
  | b0 :: b1 :: b2 :: b3 :: b4 :: b5 :: b6 :: b7 :: rest =>
      some (b0 + 256 * b1 + 65536 * b2 + 16777216 * b3 + 4294967296 * b4 +
            1099511627776 * b5 + 281474976710656 * b6 + 72057594037927936 * b7, rest)
  | _ => none

/-- Header.encode from src/image.rs: magic per version, then version, start,
the saturating end minus one, and a zero padding word, all little-endian. -/
def Header.encode (h : Header) : Except ImageError (List Nat) :=
  match h.version with
  | 1 => .ok (u32leBytes LIME_MAGIC ++ u32leBytes h.version ++
              u64leBytes h.range.start ++ u64leBytes (h.range.stop - 1) ++ u64leBytes 0)
  | 2 => .ok (u32leBytes AVML_MAGIC ++ u32leBytes h.version ++
              u64leBytes h.range.start ++ u64leBytes (h.range.stop - 1) ++ u64leBytes 0)
  | _ => .error ImageError.unimplementedVersion

/-- Header.read from src/image.rs: reads magic, version, start, end and
padding in order; end is the stored inclusive end plus one via checked_add
(overflow reports tooLarge); nonzero padding and unknown magic-version pairs
are rejected. -/
def Header.readBytes (bs : List Nat) : Except ImageError Header :=
  match readU32 bs with
  | none => .error (.io "unable to read header magic")
  | some (magic, bs1) =>
    match readU32 bs1 with
    | none => .error (.io "unable to read header version")
    | some (version, bs2) =>
      match readU64 bs2 with
      | none => .error (.io "unable to read header start offset")
      | some (start, bs3) =>
        match readU64 bs3 with
        | none => .error (.io "unable to read header end offset")
        | some (end0, bs4) =>
          if U64MAX ≤ end0 then .error .tooLarge
          else
            match readU64 bs4 with
            | none => .error (.io "unable to read header padding")
            | some (padding, _) =>
              if padding ≠ 0 then .error .invalidPadding
              else if (magic = LIME_MAGIC ∧ version = 1) ∨
                      (magic = AVML_MAGIC ∧ version = 2) then
                .ok ⟨⟨start, end0 + 1⟩, version⟩
              else .error .unsupportedFormat

/-- Reassembling the little-endian bytes of a u64 value below two to the
sixty-fourth returns the value. -/
theorem u64le_decode (x : Nat) (hx : x < 2 ^ 64) :
    x % 256 + 256 * (x / 256 % 256) + 65536 * (x / 65536 % 256) +
    16777216 * (x / 16777216 % 256) + 4294967296 * (x / 4294967296 % 256) +
    1099511627776 * (x / 1099511627776 % 256) +
    281474976710656 * (x / 281474976710656 % 256) +
    72057594037927936 * (x / 72057594037927936 % 256) = x := by
  omega

/-- C4: for every header with a non-empty range inside the u64 domain and
version 1 or 2, decoding the 32-byte little-endian encoding returns the
header unchanged: the magic is chosen per version, start is preserved, the
end is stored as end minus one and restored by adding one, and the padding
is zero. -/
theorem avml_c4_header_roundtrip (h : Header)
    (hv : h.version = 1 ∨ h.version = 2)
    (hne : h.range.start < h.range.stop)
    (hstop : h.range.stop < 2 ^ 64) :
    (Header.encode h).bind Header.readBytes = .ok h := by
  obtain ⟨⟨s, e⟩, v⟩ := h
  simp only at hne hstop
  have hs : s < 2 ^ 64 := lt_trans hne hstop
  have he1 : e - 1 < 2 ^ 64 := by omega
  rcases hv with hv | hv <;> subst hv <;>
    simp only [Header.encode, Except.bind, Header.readBytes, u32leBytes, u64leBytes,
      readU32, readU64, List.cons_append, List.nil_append] <;>
    rw [u64le_decode s hs, u64le_decode (e - 1) he1] <;>
    simp only [LIME_MAGIC, AVML_MAGIC, U64MAX] <;>
    norm_num <;>
    (rw [if_neg (by omega)]; norm_num; omega)

/-- C4 witness: the round trip evaluated at the concrete header used by the
encode_header_v1 unit test of src/image.rs. -/
theorem avml_c4_witness :
    ((⟨⟨0x1000, 0x20001⟩, 1⟩ : Header).version = 1 ∨
        (⟨⟨0x1000, 0x20001⟩, 1⟩ : Header).version = 2) ∧
      (Header.encode ⟨⟨0x1000, 0x20001⟩, 1⟩).bind Header.readBytes =
        .ok ⟨⟨0x1000, 0x20001⟩, 1⟩ :=
  ⟨Or.inl rfl,
    avml_c4_header_roundtrip ⟨⟨0x1000, 0x20001⟩, 1⟩ (Or.inl rfl) (by decide) (by decide)⟩

/-- C10: Header.encode does not validate its range: on the empty range
[0, 0) it succeeds with both versions, storing a saturated inclusive end of
zero, and decoding the resulting 32 bytes yields the non-empty range [0, 1),
so the encode-then-decode round trip is not the identity there. -/
theorem avml_c10_degenerate_roundtrip :
    (Header.encode ⟨⟨0, 0⟩, 1⟩).bind Header.readBytes = .ok ⟨⟨0, 1⟩, 1⟩ ∧
    (Header.encode ⟨⟨0, 0⟩, 2⟩).bind Header.readBytes = .ok ⟨⟨0, 1⟩, 2⟩ ∧
    (⟨⟨0, 1⟩, 1⟩ : Header) ≠ ⟨⟨0, 0⟩, 1⟩ ∧ (⟨⟨0, 1⟩, 2⟩ : Header) ≠ ⟨⟨0, 0⟩, 2⟩ :=
  ⟨rfl, rfl, by decide, by decide⟩

/-- Image::copy_if_nonzero from src/image.rs, as the list of bytes the call
appends to the destination. The buf argument stands for the size bytes the
function reads from the source into its heap cursor; compress stands for the
Snappy frame encoder of SnapCountWriter, whose output length is appended as
the 8-byte little-endian trailer. Note the order in the source: the header
is written to dst before the all-zero scan, so an all-zero buffer still
leaves the 32 header bytes in the output. -/
def copy_if_nonzero (compress : List Nat → List Nat) (version : Nat)
    (range : MRange) (buf : List Nat) : Except ImageError (List Nat) :=
  match Header.encode ⟨range, version⟩ with
  | .error e => .error e
  | .ok header =>
    if buf.all (· == 0) then .ok header
    else if version = 1 then .ok (header ++ buf)
    else .ok (header ++ compress buf ++ u64leBytes (compress buf).length)

/-- C1 (code bug): a version-2 block whose payload is one page of zero bytes
does not contribute zero bytes to the output: copy_if_nonzero has already
written the 32-byte header before the all-zero scan, so the output is the
header alone (no Snappy payload and no trailer follow, but the header does).
The result holds for any compression function since the zero branch never
compresses. -/
theorem avml_c1_code_bug_zero_block :
    (∀ compress : List Nat → List Nat,
      copy_if_nonzero compress 2 ⟨0, 0x1000⟩ (List.replicate 0x1000 0) =
        .ok (u32leBytes AVML_MAGIC ++ u32leBytes 2 ++ u64leBytes 0 ++
             u64leBytes 0xfff ++ u64leBytes 0)) ∧
    (u32leBytes AVML_MAGIC ++ u32leBytes 2 ++ u64leBytes 0 ++
        u64leBytes 0xfff ++ u64leBytes 0).length = 32 ∧ (32 : Nat) ≠ 0 := by
  have hz : (List.replicate 0x1000 (0 : Nat)).all (· == 0) = true := by
    rw [List.all_eq_true]
    intro x hx
    have hx0 := List.eq_of_mem_replicate hx
    simp [hx0]
  refine ⟨fun compress => ?_, by decide, by decide⟩
  simp only [copy_if_nonzero, Header.encode]
  rw [if_pos hz]

/-- The version-2 chunking loop of Image::copy_block from src/image.rs: while
the remaining length exceeds MAX_BLOCK_SIZE, carve off a piece of exactly
MAX_BLOCK_SIZE bytes and advance the start. The checked_add in the source
fails exactly when start plus MAX_BLOCK_SIZE exceeds U64MAX, that is when
start exceeds U64MAX minus MAX_BLOCK_SIZE; that failure reports tooLarge.
Returns the carved pieces and the final start position. -/
def copyBlockPiecesLoop (start stop : Nat) : Except ImageError (List MRange × Nat) :=
  if hgt : MAX_BLOCK_SIZE < stop - start then
    if U64MAX - MAX_BLOCK_SIZE < start then .error .tooLarge
    else
      (copyBlockPiecesLoop (start + MAX_BLOCK_SIZE) stop).map
        (fun pr => (⟨start, start + MAX_BLOCK_SIZE⟩ :: pr.1, pr.2))
  else .ok ([], start)
termination_by stop - start
decreasing_by simp only [MAX_BLOCK_SIZE] at *; omega

/-- Image::copy_block from src/image.rs, as the list of ranges it passes to
copy_block_impl: version 2 first runs the chunking loop, then any version
appends the remaining range when it is non-empty. -/
def copy_block_pieces (version : Nat) (r : MRange) : Except ImageError (List MRange) :=
  if version = 2 then
    match copyBlockPiecesLoop r.start r.stop with
    | .error e => .error e
    | .ok (ps, fin) => .ok (ps ++ (if fin < r.stop then [⟨fin, r.stop⟩] else []))
  else .ok (if r.start < r.stop then [r] else [])

/-- C2 counterexample: the chunking constant of src/image.rs is
0x1000 * 0x1000 = 16 MiB, not 0x100000 * 0x1000 = 4 GiB as the claim
states. -/
theorem avml_c2_counterexample : MAX_BLOCK_SIZE ≠ 0x100000 * 0x1000 := by decide

/-- Every piece produced by the chunking loop has length at most
MAX_BLOCK_SIZE, and the final start is within MAX_BLOCK_SIZE of the stop. -/
theorem copyBlockPiecesLoop_bound (ps : List MRange) :
    ∀ start stop fin, copyBlockPiecesLoop start stop = .ok (ps, fin) →
      (∀ p ∈ ps, p.stop - p.start ≤ MAX_BLOCK_SIZE) ∧ stop - fin ≤ MAX_BLOCK_SIZE := by
  induction ps with
  | nil =>
    intro start stop fin h
    rw [copyBlockPiecesLoop] at h
    split at h
    · split at h
      · exact absurd h (by simp)
      · rcases hrec : copyBlockPiecesLoop (start + MAX_BLOCK_SIZE) stop with e | pr
        · rw [hrec] at h; exact absurd h (by simp [Except.map])
        · rw [hrec] at h; simp [Except.map] at h
    · rename_i hc
      simp only [Except.ok.injEq, Prod.mk.injEq] at h
      refine ⟨by simp, ?_⟩
      obtain ⟨-, h2⟩ := h
      omega
  | cons p ps ih =>
    intro start stop fin h
    rw [copyBlockPiecesLoop] at h
    split at h
    · rename_i hc
      split at h
      · exact absurd h (by simp)
      · rcases hrec : copyBlockPiecesLoop (start + MAX_BLOCK_SIZE) stop with e | pr
        · rw [hrec] at h; exact absurd h (by simp [Except.map])
        · obtain ⟨ps1, fin1⟩ := pr
          rw [hrec] at h
          simp only [Except.map, Except.ok.injEq, Prod.mk.injEq, List.cons.injEq] at h
          obtain ⟨⟨hp, hps⟩, hfin⟩ := h
          subst hps; subst hfin
          obtain ⟨ihps, ihfin⟩ := ih (start + MAX_BLOCK_SIZE) stop fin1 hrec
          refine ⟨?_, ihfin⟩
          intro q hq
          rcases List.mem_cons.mp hq with hq | hq
          · rw [← hp] at hq
            subst hq; simp
          · exact ihps q hq
    · simp at h

/-- C2 (amended): the chunking constant MAX_BLOCK_SIZE used by copy_block to
subdivide version-2 ranges equals 0x1000 * 0x1000 bytes, that is 16 MiB (not
4 GiB as claimed), and every piece passed to copy_block_impl in version-2
mode has length at most this value. -/
theorem avml_c2_amended (r : MRange) (ps : List MRange)
    (h : copy_block_pieces 2 r = .ok ps) :
    MAX_BLOCK_SIZE = 0x1000 * 0x1000 ∧ ∀ p ∈ ps, p.stop - p.start ≤ MAX_BLOCK_SIZE := by
  refine ⟨rfl, ?_⟩
  unfold copy_block_pieces at h
  rw [if_pos rfl] at h
  rcases hrec : copyBlockPiecesLoop r.start r.stop with e | pr
  · rw [hrec] at h; exact absurd h (by simp)
  · obtain ⟨ps0, fin⟩ := pr
    rw [hrec] at h
    simp only [Except.ok.injEq] at h
    subst h
    obtain ⟨h1, h2⟩ := copyBlockPiecesLoop_bound ps0 r.start r.stop fin hrec
    intro p hp
    rcases List.mem_append.mp hp with hp | hp
    · exact h1 p hp
    · by_cases hf : fin < r.stop
      · rw [if_pos hf] at hp
        simp only [List.mem_singleton] at hp
        subst hp
        simpa using h2
      · rw [if_neg hf] at hp
        simp at hp

/-- C2 witness: the amended claim applied to the concrete version-2 range
from 4096 to 8192, which fits in a single piece. -/
theorem avml_c2_witness :
    MAX_BLOCK_SIZE = 0x1000 * 0x1000 ∧
      ∀ p ∈ [(⟨4096, 8192⟩ : MRange)], p.stop - p.start ≤ MAX_BLOCK_SIZE :=
  avml_c2_amended ⟨4096, 8192⟩ _ (by
    unfold copy_block_pieces
    rw [if_pos rfl]
    rw [copyBlockPiecesLoop]
    norm_num [MAX_BLOCK_SIZE])

/-- The list of canonical source paths for which Image::new of src/image.rs
enables page-aligned reading (the align_src flag). Note that /proc/kcore is
not in the list. -/
def ALIGN_SOURCES : List String := ["/dev/crash", "/dev/mem", "/dev/kcore"]

/-- The align_src computation of Image::new from src/image.rs: the
canonicalized source path is compared against ALIGN_SOURCES. -/
def align_src_for (canonicalPath : String) : Bool := ALIGN_SOURCES.contains canonicalPath

/-- The aligned branch of the copy function of src/image.rs, as the list of
read_exact sizes it issues: 4 KiB pages while at least a page remains, then
one final read of the remaining tail. -/
def alignedChunks (size : Nat) : List Nat :=
  if hge : PAGE_SIZE ≤ size then PAGE_SIZE :: alignedChunks (size - PAGE_SIZE)
  else if 0 < size then [size] else []
termination_by size
decreasing_by simp only [PAGE_SIZE] at *; omega

/-- The copy function of src/image.rs, as the list of read sizes issued
against the source: page-by-page when align_src is set, otherwise one
streaming copy of the whole remaining size (std::io::copy, modelled as a
single read). -/
def copyChunks (size : Nat) (align : Bool) : List Nat :=
  if align then alignedChunks size else if 0 < size then [size] else []

/-- C5 (code bug): Image::new enables page-aligned mode only for /dev/crash,
/dev/mem and /dev/kcore; the canonical path /proc/kcore is missing from the
list, so reads from /proc/kcore are a single streaming copy rather than the
4 KiB read_exact sequence the specification requires. -/
theorem avml_c5_code_bug_kcore_alignment :
    align_src_for "/proc/kcore" = false ∧
    align_src_for "/dev/crash" = true ∧
    align_src_for "/dev/mem" = true ∧
    align_src_for "/dev/kcore" = true ∧
    copyChunks 0x2800 false = [0x2800] ∧
    copyChunks 0x2800 true = [0x1000, 0x1000, 0x800] := by
  refine ⟨by decide, by decide, by decide, by decide, by decide, ?_⟩
  show alignedChunks 0x2800 = [0x1000, 0x1000, 0x800]
  rw [alignedChunks]; norm_num [PAGE_SIZE]
  rw [alignedChunks]; norm_num [PAGE_SIZE]
  rw [alignedChunks]; norm_num [PAGE_SIZE]

/- ===================== src/iomem.rs ===================== -/

/-- Comparison by range start, the key of the sort_unstable_by_key call in
merge_ranges of src/iomem.rs. -/
def startLe (a b : MRange) : Prop := a.start ≤ b.start

instance : DecidableRel startLe :=
  fun a b => inferInstanceAs (Decidable (a.start ≤ b.start))

instance : IsTotal MRange startLe := ⟨fun a b => Nat.le_total a.start b.start⟩

instance : IsTrans MRange startLe := ⟨fun _ _ _ hab hbc => Nat.le_trans hab hbc⟩

/-- The nested loops of merge_ranges from src/iomem.rs on the sorted list:
cur is the working range popped by the outer loop; while the next range
starts no later than cur.stop the inner loop absorbs it, replacing cur by
the range from cur.start to the absorbed stop (the absorbed stop is taken
unconditionally, exactly as the source does); otherwise cur is emitted and
the next range starts a new group. -/
def mergeAcc (cur : MRange) : List MRange → List MRange
  | [] => [cur]
  | n :: rest =>
    if n.start ≤ cur.stop then mergeAcc ⟨cur.start, n.stop⟩ rest
    else cur :: mergeAcc n rest

/-- merge_ranges from src/iomem.rs: sort by start, then merge overlapping or
adjacent neighbours. The source sorts with sort_unstable_by_key, whose order
on equal keys is unspecified; the model fixes a stable insertion sort, which
agrees with it whenever the starts are distinct. -/
def merge_ranges (ranges : List MRange) : List MRange :=
  match List.insertionSort startLe ranges with
  | [] => []
  | r :: rest => mergeAcc r rest

/-- C3 counterexample: merging the list with the nested range [2, 5) inside
[0, 10) truncates the first range to [0, 5): address 7 is covered by the
input but not by the output, so the union is not preserved. -/
theorem avml_c3_counterexample :
    merge_ranges [⟨0, 10⟩, ⟨2, 5⟩] = [⟨0, 5⟩] ∧
    coversList [⟨0, 10⟩, ⟨2, 5⟩] 7 ∧
    ¬ coversList (merge_ranges [⟨0, 10⟩, ⟨2, 5⟩]) 7 := by
  refine ⟨by decide, by decide, by decide⟩

/-- The merge loop never returns an empty list and its first element keeps
the start of the working range. -/
theorem mergeAcc_head_start (l : List MRange) :
    ∀ cur, ∃ s t, mergeAcc cur l = ⟨cur.start, s⟩ :: t := by
  induction l with
  | nil => exact fun cur => ⟨cur.stop, [], rfl⟩
  | cons n rest ih =>
    intro cur
    by_cases hc : n.start ≤ cur.stop
    · obtain ⟨s, t, ht⟩ := ih ⟨cur.start, n.stop⟩
      exact ⟨s, t, by rw [mergeAcc, if_pos hc]; exact ht⟩
    · exact ⟨cur.stop, mergeAcc n rest, by rw [mergeAcc, if_neg hc]⟩

/-- Consecutive ranges emitted by the merge loop are separated: each one
stops strictly before the next one starts. -/
theorem mergeAcc_chain (l : List MRange) :
    ∀ cur, List.Chain' (fun a b => a.stop < b.start) (mergeAcc cur l) := by
  induction l with
  | nil => intro cur; simp [mergeAcc]
  | cons n rest ih =>
    intro cur
    rw [mergeAcc]
    by_cases hc : n.start ≤ cur.stop
    · rw [if_pos hc]; exact ih ⟨cur.start, n.stop⟩
    · rw [if_neg hc]
      obtain ⟨s, t, ht⟩ := mergeAcc_head_start rest n
      rw [List.chain'_cons']
      refine ⟨?_, ih n⟩
      intro y hy
      rw [ht] at hy
      simp only [List.head?_cons, Option.mem_def, Option.some.injEq] at hy
      subst hy
      simpa using Nat.lt_of_not_le hc

/-- Every range emitted by the merge loop starts where the working range or
one of the input ranges starts. -/
theorem mergeAcc_starts (l : List MRange) :
    ∀ cur y, y ∈ mergeAcc cur l → y.start = cur.start ∨ ∃ z ∈ l, y.start = z.start := by
  induction l with
  | nil =>
    intro cur y hy
    rw [mergeAcc] at hy
    simp only [List.mem_singleton] at hy
    exact Or.inl (by rw [hy])
  | cons n rest ih =>
    intro cur y hy
    rw [mergeAcc] at hy
    by_cases hc : n.start ≤ cur.stop
    · rw [if_pos hc] at hy
      rcases ih ⟨cur.start, n.stop⟩ y hy with h | ⟨z, hz, hzs⟩
      · exact Or.inl h
      · exact Or.inr ⟨z, List.mem_cons_of_mem n hz, hzs⟩
    · rw [if_neg hc] at hy
      rcases List.mem_cons.mp hy with hy | hy
      · exact Or.inl (by rw [hy])
      · rcases ih n y hy with h | ⟨z, hz, hzs⟩
        · exact Or.inr ⟨n, List.mem_cons_self n rest, h⟩
        · exact Or.inr ⟨z, List.mem_cons_of_mem n hz, hzs⟩

/-- When the working range and the remaining list are sorted by start, the
merge loop emits a list sorted by start. -/
theorem mergeAcc_sorted (l : List MRange) :
    ∀ cur, List.Pairwise startLe (cur :: l) → List.Sorted startLe (mergeAcc cur l) := by
  induction l with
  | nil => intro cur _; simp [mergeAcc, List.Sorted]
  | cons n rest ih =>
    intro cur h
    rw [List.pairwise_cons] at h
    obtain ⟨hcur, hnr⟩ := h
    rw [mergeAcc]
    by_cases hc : n.start ≤ cur.stop
    · rw [if_pos hc]
      refine ih ⟨cur.start, n.stop⟩ ?_
      rw [List.pairwise_cons]
      refine ⟨?_, (List.pairwise_cons.mp hnr).2⟩
      intro z hz
      exact hcur z (List.mem_cons_of_mem n hz)
    · rw [if_neg hc]
      rw [List.Sorted, List.pairwise_cons]
      refine ⟨?_, ih n hnr⟩
      intro y hy
      rcases mergeAcc_starts rest n y hy with h | ⟨z, hz, hzs⟩
      · unfold startLe
        rw [h]
        exact hcur n (List.mem_cons_self n rest)
      · unfold startLe
        rw [hzs]
        exact hcur z (List.mem_cons_of_mem n hz)

/-- Coverage by a cons list splits into the head and the tail. -/
theorem coversList_cons (r : MRange) (l : List MRange) (x : Nat) :
    coversList (r :: l) x ↔ (r.covers x ∨ coversList l x) := by
  unfold coversList
  simp

/-- A list sorted by start in which each range stops before its successor
starts has that separation pairwise. -/
theorem chain_sorted_pairwise (l : List MRange)
    (hs : List.Sorted startLe l)
    (hc : List.Chain' (fun a b => a.stop < b.start) l) :
    List.Pairwise (fun a b => a.stop < b.start) l := by
  induction l with
  | nil => exact List.Pairwise.nil
  | cons x t ih =>
    rw [List.pairwise_cons]
    rw [List.sorted_cons] at hs
    obtain ⟨hxs, hts⟩ := hs
    refine ⟨?_, ih hts (List.Chain'.tail hc)⟩
    intro y hy
    cases t with
    | nil => simp at hy
    | cons z t1 =>
      have hxz : x.stop < z.start := (List.chain'_cons.mp hc).1
      rcases List.mem_cons.mp hy with hy | hy
      · rw [hy]; exact hxz
      · have hzy : z.start ≤ y.start := by
          rw [List.sorted_cons] at hts
          exact hts.1 y hy
        omega

/-- Under the no-nesting hypothesis (starts and stops sorted together), the
merge loop preserves the union of covered addresses. -/
theorem mergeAcc_union (l : List MRange) :
    ∀ cur, List.Pairwise (fun a b => a.start ≤ b.start ∧ a.stop ≤ b.stop) (cur :: l) →
      ∀ x, coversList (mergeAcc cur l) x ↔ (cur.covers x ∨ coversList l x) := by
  induction l with
  | nil =>
    intro cur _ x
    rw [mergeAcc]
    simp [coversList]
  | cons n rest ih =>
    intro cur h x
    rw [List.pairwise_cons] at h
    obtain ⟨hcur, hnr⟩ := h
    have hcn : cur.start ≤ n.start ∧ cur.stop ≤ n.stop :=
      hcur n (List.mem_cons_self n rest)
    rw [mergeAcc]
    by_cases hc : n.start ≤ cur.stop
    · rw [if_pos hc]
      have hpw : List.Pairwise (fun a b => a.start ≤ b.start ∧ a.stop ≤ b.stop)
          ((⟨cur.start, n.stop⟩ : MRange) :: rest) := by
        rw [List.pairwise_cons]
        refine ⟨?_, (List.pairwise_cons.mp hnr).2⟩
        intro z hz
        have h1 := hcur z (List.mem_cons_of_mem n hz)
        have h2 := (List.pairwise_cons.mp hnr).1 z hz
        exact ⟨h1.1, h2.2⟩
      rw [ih ⟨cur.start, n.stop⟩ hpw x, coversList_cons]
      simp only [MRange.covers]
      constructor
      · rintro (⟨h1, h2⟩ | hrest)
        · by_cases hx : n.start ≤ x
          · exact Or.inr (Or.inl ⟨hx, h2⟩)
          · exact Or.inl ⟨h1, by omega⟩
        · exact Or.inr (Or.inr hrest)
      · rintro (⟨h1, h2⟩ | ⟨h1, h2⟩ | hrest)
        · exact Or.inl ⟨h1, by omega⟩
        · exact Or.inl ⟨by omega, h2⟩
        · exact Or.inr hrest
    · rw [if_neg hc]
      rw [coversList_cons]
      rw [ih n hnr x]
      rw [coversList_cons]

/-- C3 (amended): for every list R of u64 ranges, merge_ranges R is sorted
by start and pairwise disjoint; and provided no range of R is nested inside
another (whenever one range starts no later than another it also stops no
later), the union of covered addresses equals the union of R. Without that
proviso the union can shrink, as the counterexample with a nested range
shows. -/
theorem avml_c3_amended (R : List MRange) :
    List.Sorted startLe (merge_ranges R) ∧
    List.Pairwise (fun a b => ∀ x, ¬(a.covers x ∧ b.covers x)) (merge_ranges R) ∧
    ((∀ a ∈ R, ∀ b ∈ R, a.start ≤ b.start → a.stop ≤ b.stop) →
      ∀ x, coversList (merge_ranges R) x ↔ coversList R x) := by
  unfold merge_ranges
  rcases hs : List.insertionSort startLe R with _ | ⟨r, rest⟩
  · have hperm := List.perm_insertionSort startLe R
    rw [hs] at hperm
    have hR : R = [] := List.Perm.eq_nil hperm.symm
    subst hR
    exact ⟨List.sorted_nil, List.Pairwise.nil, fun _ _ => Iff.rfl⟩
  · have hperm := List.perm_insertionSort startLe R
    rw [hs] at hperm
    have hmem : ∀ y : MRange, y ∈ r :: rest ↔ y ∈ R := fun y => hperm.mem_iff
    have hsorted : List.Sorted startLe (r :: rest) := by
      have hins := List.sorted_insertionSort startLe R
      rwa [hs] at hins
    refine ⟨mergeAcc_sorted rest r hsorted, ?_, ?_⟩
    · have hchain := mergeAcc_chain rest r
      have hsorted2 := mergeAcc_sorted rest r hsorted
      have hpw := chain_sorted_pairwise _ hsorted2 hchain
      refine List.Pairwise.imp ?_ hpw
      intro a b hab
      intro x hx
      obtain ⟨⟨ha1, ha2⟩, hb1, hb2⟩ := hx
      omega
    · intro hnn x
      have hpw : List.Pairwise (fun a b => a.start ≤ b.start ∧ a.stop ≤ b.stop)
          (r :: rest) := by
        refine List.Pairwise.imp_of_mem ?_ hsorted
        intro a b ha hb hab
        exact ⟨hab, hnn a ((hmem a).mp ha) b ((hmem b).mp hb) hab⟩
      rw [mergeAcc_union rest r hpw x, ← coversList_cons]
      unfold coversList
      constructor
      · rintro ⟨z, hz, hzx⟩
        exact ⟨z, (hmem z).mp hz, hzx⟩
      · rintro ⟨z, hz, hzx⟩
        exact ⟨z, (hmem z).mpr hz, hzx⟩

/-- C3 witness: the amended claim evaluated on the first input of the
test_merge_ranges unit test of src/iomem.rs, whose ranges are disjoint and
therefore nest-free. -/
theorem avml_c3_witness :
    List.Sorted startLe (merge_ranges [⟨0, 3⟩, ⟨3, 6⟩, ⟨7, 10⟩, ⟨12, 15⟩]) ∧
    List.Pairwise (fun a b => ∀ x, ¬(a.covers x ∧ b.covers x))
      (merge_ranges [⟨0, 3⟩, ⟨3, 6⟩, ⟨7, 10⟩, ⟨12, 15⟩]) ∧
    ∀ x, coversList (merge_ranges [⟨0, 3⟩, ⟨3, 6⟩, ⟨7, 10⟩, ⟨12, 15⟩]) x ↔
      coversList [⟨0, 3⟩, ⟨3, 6⟩, ⟨7, 10⟩, ⟨12, 15⟩] x :=
  ⟨(avml_c3_amended [⟨0, 3⟩, ⟨3, 6⟩, ⟨7, 10⟩, ⟨12, 15⟩]).1,
   (avml_c3_amended [⟨0, 3⟩, ⟨3, 6⟩, ⟨7, 10⟩, ⟨12, 15⟩]).2.1,
   (avml_c3_amended [⟨0, 3⟩, ⟨3, 6⟩, ⟨7, 10⟩, ⟨12, 15⟩]).2.2 (by decide)⟩

/- ===================== src/upload/blobstore.rs ===================== -/

def ONE_MB : Nat := 1024 * 1024
def BLOB_MAX_BLOCKS : Nat := 50000
def BLOB_MAX_BLOCK_SIZE : Nat := ONE_MB * 4000
def BLOB_MAX_FILE_SIZE : Nat := BLOB_MAX_BLOCKS * BLOB_MAX_BLOCK_SIZE
def BLOB_MIN_BLOCK_SIZE : Nat := ONE_MB * 5
def MAX_CONCURRENCY : Nat := 10
def REASONABLE_BLOCK_SIZE : Nat := ONE_MB * 100

/-- The error enum of src/upload/blobstore.rs. -/
inductive BlobError where
  | tooLarge
  | queueBlock
  | uploadFromQueue
  | io
  | azure
  | invalidSasToken (msg : String)
  | sizeConversion
deriving DecidableEq, Repr

/-- The file-size guard of calc_concurrency from src/upload/blobstore.rs: a
known file size beyond BLOB_MAX_FILE_SIZE is rejected. -/
def fileTooLarge (file_size : Option Nat) : Bool :=
  match file_size with
  | some fs => decide (BLOB_MAX_FILE_SIZE < fs)
  | none => false

/-- The file-size-driven block-size choice of calc_concurrency from
src/upload/blobstore.rs, used when the hint is absent or zero: 5 MiB blocks
when the file fits in 50000 of them, else 100 MiB blocks when it fits, else
the smallest size that fits within BLOB_MAX_BLOCKS. -/
def calcBlockSizeAuto (file_size : Option Nat) : Nat :=
  match file_size with
  | some x =>
    if x < BLOB_MIN_BLOCK_SIZE * BLOB_MAX_BLOCKS then BLOB_MIN_BLOCK_SIZE
    else if x < REASONABLE_BLOCK_SIZE * BLOB_MAX_BLOCKS then REASONABLE_BLOCK_SIZE
    else x / BLOB_MAX_BLOCKS + 1
  | none => REASONABLE_BLOCK_SIZE

/-- The block-size selection of calc_concurrency from
src/upload/blobstore.rs (before the final clamp to BLOB_MAX_BLOCK_SIZE):
a zero or missing hint derives the size from the file size, a hint at or
below the high-throughput minimum is raised to it, any other hint is used
as given. The saturated_mul products in the source do not saturate on
64-bit usize, so plain products model them. -/
def calcBlockSize (file_size block_size : Option Nat) : Nat :=
  match block_size with
  | some x =>
    if x = 0 then calcBlockSizeAuto file_size
    else if x ≤ BLOB_MIN_BLOCK_SIZE then BLOB_MIN_BLOCK_SIZE
    else x
  | none => calcBlockSizeAuto file_size

/-- The consumer-count selection of calc_concurrency from
src/upload/blobstore.rs: a hint of zero disables concurrency, any other
hint is used as given, and without a hint the count keeps at most 200 MB in
flight, capped at MAX_CONCURRENCY and floored at one. -/
def calcConcurrencyCount (upload_concurrency : Option Nat) (bs : Nat) : Nat :=
  match upload_concurrency with
  | some x => if x = 0 then 1 else x
  | none =>
    if 200 * ONE_MB / bs = 0 then 1
    else min MAX_CONCURRENCY (200 * ONE_MB / bs)

/-- calc_concurrency from src/upload/blobstore.rs. -/
def calc_concurrency (file_size block_size upload_concurrency : Option Nat) :
    Except BlobError (Nat × Nat) :=
  if fileTooLarge file_size then .error .tooLarge
  else
    let bs := min (calcBlockSize file_size block_size) BLOB_MAX_BLOCK_SIZE
    .ok (bs, calcConcurrencyCount upload_concurrency bs)

/-- C6 counterexample: a 1 TiB file with a user block-size hint of 1 MiB is
accepted (the hint is raised to 5 MiB), yet the resulting block count
exceeds BLOB_MAX_BLOCKS: the ceiling of 1 TiB over 5 MiB is 209716. -/
theorem avml_c6_counterexample :
    calc_concurrency (some (1024 ^ 4)) (some (1024 * 1024)) none =
      .ok (5 * ONE_MB, 10) ∧
    1024 ^ 4 ≤ BLOB_MAX_FILE_SIZE ∧
    ¬((1024 ^ 4 + (5 * ONE_MB) - 1) / (5 * ONE_MB) ≤ BLOB_MAX_BLOCKS) :=
  ⟨rfl, by decide, by decide⟩

/-- The ceiling of s over b is at most k as soon as s is at most k blocks of
b bytes. -/
theorem ceil_div_le (s b k : Nat) (hb : 0 < b) (h : s ≤ k * b) :
    (s + b - 1) / b ≤ k := by
  have h1 : s + b - 1 ≤ b * k + (b - 1) := by
    rw [Nat.mul_comm]; omega
  calc (s + b - 1) / b ≤ (b * k + (b - 1)) / b := Nat.div_le_div_right h1
    _ = k + (b - 1) / b := Nat.mul_add_div hb k (b - 1)
    _ = k := by rw [Nat.div_eq_of_lt (by omega)]; omega

/-- The selected block size is always positive. -/
theorem calcBlockSize_pos (fs b : Option Nat) : 0 < calcBlockSize fs b := by
  have hauto : 0 < calcBlockSizeAuto fs := by
    rcases fs with _ | x
    · decide
    · simp only [calcBlockSizeAuto]
      split
      · decide
      · split
        · decide
        · exact Nat.succ_pos _
  rcases b with _ | x
  · exact hauto
  · simp only [calcBlockSize]
    split
    · exact hauto
    · split
      · decide
      · omega

/-- The selected consumer count is always at least one. -/
theorem calcConcurrencyCount_pos (c : Option Nat) (bs : Nat) :
    1 ≤ calcConcurrencyCount c bs := by
  rcases c with _ | x
  · simp only [calcConcurrencyCount]
    split
    · exact Nat.le_refl 1
    · rename_i hnz
      have h10 : 1 ≤ MAX_CONCURRENCY := by decide
      have hd : 1 ≤ 200 * ONE_MB / bs := Nat.one_le_iff_ne_zero.mpr hnz
      exact le_min h10 hd
  · simp only [calcConcurrencyCount]
    split
    · exact Nat.le_refl 1
    · omega

/-- With no block-size hint (or a zero hint), the selection driven by the
file size keeps the block count within BLOB_MAX_BLOCKS. -/
theorem calcBlockSize_ceil (s : Nat) (hs : s ≤ BLOB_MAX_FILE_SIZE)
    (b : Option Nat) (hb : b = none ∨ b = some 0) :
    (s + (min (calcBlockSize (some s) b) BLOB_MAX_BLOCK_SIZE) - 1) /
      (min (calcBlockSize (some s) b) BLOB_MAX_BLOCK_SIZE) ≤ BLOB_MAX_BLOCKS := by
  have hbs : calcBlockSize (some s) b = calcBlockSizeAuto (some s) := by
    rcases hb with hb | hb <;> subst hb <;> rfl
  rw [hbs]
  simp only [calcBlockSizeAuto]
  split
  · rename_i h1
    have hmin : min BLOB_MIN_BLOCK_SIZE BLOB_MAX_BLOCK_SIZE = BLOB_MIN_BLOCK_SIZE := by
      decide
    rw [hmin]
    refine ceil_div_le s BLOB_MIN_BLOCK_SIZE BLOB_MAX_BLOCKS (by decide) ?_
    simp only [BLOB_MIN_BLOCK_SIZE, BLOB_MAX_BLOCKS, ONE_MB] at h1 ⊢
    omega
  · split
    · rename_i h2
      have hmin : min REASONABLE_BLOCK_SIZE BLOB_MAX_BLOCK_SIZE = REASONABLE_BLOCK_SIZE := by
        decide
      rw [hmin]
      refine ceil_div_le s REASONABLE_BLOCK_SIZE BLOB_MAX_BLOCKS (by decide) ?_
      simp only [REASONABLE_BLOCK_SIZE, BLOB_MAX_BLOCKS, ONE_MB] at h2 ⊢
      omega
    · rcases le_or_lt (s / BLOB_MAX_BLOCKS + 1) BLOB_MAX_BLOCK_SIZE with hle | hgt2
      · rw [min_eq_left hle]
        refine ceil_div_le s _ BLOB_MAX_BLOCKS (Nat.succ_pos _) ?_
        simp only [BLOB_MAX_BLOCKS]
        omega
      · rw [min_eq_right (le_of_lt hgt2)]
        refine ceil_div_le s BLOB_MAX_BLOCK_SIZE BLOB_MAX_BLOCKS (by decide) ?_
        simp only [BLOB_MAX_FILE_SIZE] at hs
        exact hs

/-- C6 (amended): for every file size within BLOB_MAX_FILE_SIZE and all
hints, calc_concurrency succeeds and returns a positive block size at most
BLOB_MAX_BLOCK_SIZE and at least one worker; the block-count bound
ceil(s / block_size) at most BLOB_MAX_BLOCKS additionally holds whenever the
block-size hint is absent or zero (a positive user hint can violate it, as
the counterexample shows). -/
theorem avml_c6_amended (s : Nat) (b c : Option Nat) (hs : s ≤ BLOB_MAX_FILE_SIZE) :
    ∃ bs w, calc_concurrency (some s) b c = .ok (bs, w) ∧
      0 < bs ∧ bs ≤ BLOB_MAX_BLOCK_SIZE ∧ 1 ≤ w ∧
      ((b = none ∨ b = some 0) → (s + bs - 1) / bs ≤ BLOB_MAX_BLOCKS) := by
  have hft : fileTooLarge (some s) = false := by
    simp only [fileTooLarge, decide_eq_false_iff_not, not_lt]
    exact hs
  refine ⟨min (calcBlockSize (some s) b) BLOB_MAX_BLOCK_SIZE,
          calcConcurrencyCount c (min (calcBlockSize (some s) b) BLOB_MAX_BLOCK_SIZE),
          ?_, ?_, ?_, ?_, ?_⟩
  · simp only [calc_concurrency, hft, Bool.false_eq_true, if_false]
  · exact lt_min_iff.mpr ⟨calcBlockSize_pos (some s) b, by decide⟩
  · exact min_le_right _ _
  · exact calcConcurrencyCount_pos c _
  · exact calcBlockSize_ceil s hs b

/-- C6 witness: the amended claim at the 400 MiB file size of the
test_calc_concurrency unit test, with no block-size hint and a concurrency
hint of ten. -/
theorem avml_c6_witness :
    400 * ONE_MB ≤ BLOB_MAX_FILE_SIZE ∧
    ∃ bs w, calc_concurrency (some (400 * ONE_MB)) none (some 10) = .ok (bs, w) ∧
      0 < bs ∧ bs ≤ BLOB_MAX_BLOCK_SIZE ∧ 1 ≤ w ∧
      (((none : Option Nat) = none ∨ (none : Option Nat) = some 0) →
        (400 * ONE_MB + bs - 1) / bs ≤ BLOB_MAX_BLOCKS) :=
  ⟨by decide, avml_c6_amended (400 * ONE_MB) none (some 10) (by decide)⟩

/-- C7 counterexample: a concurrency hint of 15 is returned as is, so the
worker count exceeds 10; and with no hint the budget is 200 MB, not 500 MiB:
for a 1 TiB file (100 MiB blocks) the code returns 2 workers where the
claimed formula gives 5. -/
theorem avml_c7_counterexample :
    calc_concurrency (some (400 * ONE_MB)) none (some 15) = .ok (5 * ONE_MB, 15) ∧
    ¬(15 ≤ MAX_CONCURRENCY) ∧
    min MAX_CONCURRENCY (500 * ONE_MB / (5 * ONE_MB)) = 10 ∧
    calc_concurrency (some (1024 ^ 4)) none none = .ok (100 * ONE_MB, 2) ∧
    min MAX_CONCURRENCY (500 * ONE_MB / (100 * ONE_MB)) = 5 ∧ (2 : Nat) ≠ 5 :=
  ⟨rfl, by decide, by decide, rfl, by decide, by decide⟩

/-- C7 (amended): the worker count is 1 when the concurrency hint is 0, it
equals the hint when a nonzero hint is given (so it can exceed 10), and only
when no hint is given does it equal min(10, 200 MB / block_size) with a
minimum of 1, in which case it never exceeds 10. -/
theorem avml_c7_amended (fs b c : Option Nat) (bs w : Nat)
    (h : calc_concurrency fs b c = .ok (bs, w)) :
    (c = some 0 → w = 1) ∧
    (∀ x, c = some x → x ≠ 0 → w = x) ∧
    (c = none →
      w = (if 200 * ONE_MB / bs = 0 then 1
           else min MAX_CONCURRENCY (200 * ONE_MB / bs)) ∧
      1 ≤ w ∧ w ≤ MAX_CONCURRENCY) := by
  unfold calc_concurrency at h
  split at h
  · exact absurd h (by simp)
  · simp only [Except.ok.injEq, Prod.mk.injEq] at h
    obtain ⟨hbs, hw⟩ := h
    subst hbs
    refine ⟨?_, ?_, ?_⟩
    · intro hc
      subst hc
      rw [← hw]
      rfl
    · intro x hc hx
      subst hc
      rw [← hw]
      simp only [calcConcurrencyCount]
      rw [if_neg hx]
    · intro hc
      subst hc
      refine ⟨by rw [← hw]; rfl, by rw [← hw]; exact calcConcurrencyCount_pos none _, ?_⟩
      rw [← hw]
      simp only [calcConcurrencyCount]
      split
      · decide
      · exact min_le_left _ _

/-- C7 witness: the amended claim at a 400 MiB file with no hints, where the
code returns 5 MiB blocks and 10 workers. -/
theorem avml_c7_witness :
    ((none : Option Nat) = some 0 → (10 : Nat) = 1) ∧
    (∀ x, (none : Option Nat) = some x → x ≠ 0 → (10 : Nat) = x) ∧
    ((none : Option Nat) = none →
      (10 : Nat) = (if 200 * ONE_MB / (5 * ONE_MB) = 0 then 1
        else min MAX_CONCURRENCY (200 * ONE_MB / (5 * ONE_MB))) ∧
      1 ≤ (10 : Nat) ∧ (10 : Nat) ≤ MAX_CONCURRENCY) :=
  avml_c7_amended (some (400 * ONE_MB)) none none (5 * ONE_MB) 10 rfl

/- ===================== src/snapshot.rs ===================== -/

/-- An address is covered by the range of some segment block. -/
def segCovers (hs : List Block) (x : Nat) : Prop := ∃ h ∈ hs, h.range.covers x

instance (hs : List Block) (x : Nat) : Decidable (segCovers hs x) := by
  unfold segCovers; infer_instance

/-- The inner loop of Snapshot::find_kcore_blocks from src/snapshot.rs for
one requested range: walk the segment headers in order; a segment containing
both the current start and the inclusive end emits one block and stops; a
segment containing only the start emits the block up to the segment stop and
continues with the advanced range; other segments are skipped. Offsets use
the saturating arithmetic of the source. -/
def findKcoreInner (r : MRange) : List Block → List Block
  | [] => []
  | h :: hs =>
    if h.range.covers r.start then
      if h.range.covers (r.stop - 1) then
        [⟨satAdd h.offset r.start - h.range.start, r⟩]
      else
        ⟨satAdd h.offset r.start - h.range.start, ⟨r.start, h.range.stop⟩⟩ ::
          findKcoreInner ⟨h.range.stop, r.stop⟩ hs
    else
      findKcoreInner r hs

/-- Snapshot::find_kcore_blocks from src/snapshot.rs: the outer loop over
the requested ranges, concatenating the per-range block lists in order. -/
def find_kcore_blocks (ranges : List MRange) (headers : List Block) : List Block :=
  match ranges with
  | [] => []
  | r :: rs => findKcoreInner r headers ++ find_kcore_blocks rs headers

/-- C8 counterexample: with the single requested range [15, 25) and the
single segment [20, 30) at offset 0 (both lists trivially sorted and
disjoint), find_kcore_blocks emits nothing although address 20 lies in the
intersection of the requested range and the segment. The range starts in a
gap, so the walk never matches, and the mapped tail [20, 25) is lost. -/
theorem avml_c8_counterexample :
    find_kcore_blocks [⟨15, 25⟩] [⟨0, ⟨20, 30⟩⟩] = [] ∧
    coversList [⟨15, 25⟩] 20 ∧ segCovers [⟨0, ⟨20, 30⟩⟩] 20 := by
  refine ⟨by decide, by decide, by decide⟩

/-- Coverage by a cons list of segments splits into head and tail. -/
theorem segCovers_cons (h : Block) (tl : List Block) (x : Nat) :
    segCovers (h :: tl) x ↔ (h.range.covers x ∨ segCovers tl x) := by
  unfold segCovers
  simp

/-- When no address of the range is mapped by any segment, the inner walk of
find_kcore_blocks emits nothing. -/
theorem findKcoreInner_eq_nil (hs : List Block) :
    ∀ r : MRange, r.start < r.stop →
      (∀ x, r.covers x → ¬ segCovers hs x) →
      findKcoreInner r hs = [] := by
  induction hs with
  | nil => intro r _ _; rfl
  | cons h tl ih =>
    intro r hne hemp
    by_cases hcov : h.range.covers r.start
    · exact absurd ((segCovers_cons h tl r.start).mpr (Or.inl hcov))
        (hemp r.start ⟨Nat.le_refl _, hne⟩)
    · rw [findKcoreInner, if_neg hcov]
      refine ih r hne ?_
      intro x hx hseg
      exact hemp x hx ((segCovers_cons h tl x).mpr (Or.inr hseg))

/-- The full specification of the inner walk of find_kcore_blocks for one
non-empty requested range over sorted disjoint segments with non-saturating
offsets, assuming the mapped part of the range is an initial segment of it:
the emitted blocks cover exactly the intersection of the range with the
mapped addresses, they are ordered and separated, they stay inside the
requested range, and each block's offset is the offset of the segment
containing its start plus the distance from that segment's start. -/
theorem findKcoreInner_spec (hs : List Block) :
    ∀ r : MRange, r.start < r.stop →
      List.Pairwise (fun g h => g.range.stop ≤ h.range.start) hs →
      (∀ h ∈ hs, h.offset + h.range.stop ≤ U64MAX) →
      (∀ x, x < r.stop → r.start ≤ x → segCovers hs x →
        ∀ y, y ≤ x → r.start ≤ y → segCovers hs y) →
      (∀ x, coversList ((findKcoreInner r hs).map Block.range) x ↔
          (r.covers x ∧ segCovers hs x)) ∧
      List.Chain' (fun a b => a.range.stop ≤ b.range.start) (findKcoreInner r hs) ∧
      (∀ bl ∈ findKcoreInner r hs,
        r.start ≤ bl.range.start ∧ bl.range.stop ≤ r.stop ∧
          bl.range.start < bl.range.stop) ∧
      (∀ bl ∈ findKcoreInner r hs, ∃ h ∈ hs, h.range.covers bl.range.start ∧
        bl.offset = h.offset + (bl.range.start - h.range.start)) := by
  induction hs with
  | nil =>
    intro r hne _ _ _
    refine ⟨?_, by simp [findKcoreInner], by simp [findKcoreInner],
      by simp [findKcoreInner]⟩
    intro x
    simp [findKcoreInner, coversList, segCovers]
  | cons h tl ih =>
    intro r hne hsorted hsat hpre
    have hhead : ∀ g ∈ tl, h.range.stop ≤ g.range.start :=
      (List.pairwise_cons.mp hsorted).1
    have htl := (List.pairwise_cons.mp hsorted).2
    have hsattl : ∀ g ∈ tl, g.offset + g.range.stop ≤ U64MAX :=
      fun g hg => hsat g (List.mem_cons_of_mem h hg)
    rw [findKcoreInner]
    by_cases hc1 : h.range.covers r.start
    · obtain ⟨hc1a, hc1b⟩ := hc1
      by_cases hc2 : h.range.covers (r.stop - 1)
      · obtain ⟨hc2a, hc2b⟩ := hc2
        rw [if_pos ⟨hc1a, hc1b⟩, if_pos ⟨hc2a, hc2b⟩]
        refine ⟨?_, by simp, ?_, ?_⟩
        · intro x
          simp only [List.map_cons, List.map_nil, coversList_cons]
          constructor
          · intro hx
            rcases hx with hx | hx
            · obtain ⟨hxa, hxb⟩ := hx
              exact ⟨⟨hxa, hxb⟩, (segCovers_cons h tl x).mpr
                (Or.inl ⟨le_trans hc1a hxa, by omega⟩)⟩
            · exact absurd hx (by simp [coversList])
          · rintro ⟨hrx, -⟩
            exact Or.inl hrx
        · intro bl hbl
          simp only [List.mem_singleton] at hbl
          subst hbl
          exact ⟨Nat.le_refl _, Nat.le_refl _, hne⟩
        · intro bl hbl
          simp only [List.mem_singleton] at hbl
          subst hbl
          refine ⟨h, List.mem_cons_self h tl, ⟨hc1a, hc1b⟩, ?_⟩
          have hnosat : h.offset + r.start ≤ U64MAX := by
            have := hsat h (List.mem_cons_self h tl)
            omega
          show satAdd h.offset r.start - h.range.start = _
          simp only [satAdd]
          rw [min_eq_left hnosat]
          omega
      · rw [if_pos ⟨hc1a, hc1b⟩, if_neg hc2]
        have hstop : h.range.stop < r.stop := by
          unfold MRange.covers at hc2
          omega
        have hpre2 : ∀ x, x < r.stop → h.range.stop ≤ x → segCovers tl x →
            ∀ y, y ≤ x → h.range.stop ≤ y → segCovers tl y := by
          intro x hx1 hx2 hxc y hy1 hy2
          have hxc2 : segCovers (h :: tl) x := (segCovers_cons h tl x).mpr (Or.inr hxc)
          have hyc := hpre x hx1 (le_trans (le_of_lt hc1b) hx2) hxc2 y hy1
            (le_trans (le_of_lt hc1b) hy2)
          rcases (segCovers_cons h tl y).mp hyc with hy | hy
          · exact absurd hy.2 (Nat.not_lt.mpr hy2)
          · exact hy
        obtain ⟨ihcov, ihchain, ihbounds, ihoff⟩ :=
          ih ⟨h.range.stop, r.stop⟩ hstop htl hsattl hpre2
        refine ⟨?_, ?_, ?_, ?_⟩
        · intro x
          simp only [List.map_cons, coversList_cons]
          rw [ihcov x]
          constructor
          · rintro (hx | ⟨hx1, hx2⟩)
            · simp only [MRange.covers] at hx
              obtain ⟨hxa, hxb⟩ := hx
              refine ⟨⟨hxa, by omega⟩, (segCovers_cons h tl x).mpr
                (Or.inl ⟨le_trans hc1a hxa, hxb⟩)⟩
            · obtain ⟨hxa, hxb⟩ := hx1
              exact ⟨⟨le_trans (le_of_lt hc1b) hxa, hxb⟩,
                (segCovers_cons h tl x).mpr (Or.inr hx2)⟩
          · rintro ⟨⟨hxa, hxb⟩, hseg⟩
            rcases (segCovers_cons h tl x).mp hseg with hx | hx
            · exact Or.inl ⟨hxa, hx.2⟩
            · obtain ⟨g, hg, hg1, hg2⟩ := hx
              have hgs := hhead g hg
              exact Or.inr ⟨⟨le_trans hgs hg1, hxb⟩, ⟨g, hg, hg1, hg2⟩⟩
        · rw [List.chain'_cons']
          refine ⟨?_, ihchain⟩
          intro b hb
          have hbmem : b ∈ findKcoreInner ⟨h.range.stop, r.stop⟩ tl :=
            List.mem_of_mem_head? hb
          exact (ihbounds b hbmem).1
        · intro bl hbl
          rcases List.mem_cons.mp hbl with hbl | hbl
          · subst hbl
            exact ⟨Nat.le_refl _, le_of_lt hstop, hc1b⟩
          · obtain ⟨h1, h2, h3⟩ := ihbounds bl hbl
            exact ⟨le_trans (le_of_lt hc1b) h1, h2, h3⟩
        · intro bl hbl
          rcases List.mem_cons.mp hbl with hbl | hbl
          · subst hbl
            refine ⟨h, List.mem_cons_self h tl, ⟨hc1a, hc1b⟩, ?_⟩
            have hnosat : h.offset + r.start ≤ U64MAX := by
              have := hsat h (List.mem_cons_self h tl)
              omega
            show satAdd h.offset r.start - h.range.start = _
            simp only [satAdd]
            rw [min_eq_left hnosat]
            omega
          · obtain ⟨g, hg, hcov, hoff⟩ := ihoff bl hbl
            exact ⟨g, List.mem_cons_of_mem h hg, hcov, hoff⟩
    · rw [if_neg hc1]
      by_cases hA : h.range.stop ≤ r.start
      · have hnoh : ∀ x, r.start ≤ x → ¬ h.range.covers x := by
          intro x hx hcov
          obtain ⟨-, h2⟩ := hcov
          omega
        have hpre1 : ∀ x, x < r.stop → r.start ≤ x → segCovers tl x →
            ∀ y, y ≤ x → r.start ≤ y → segCovers tl y := by
          intro x hx1 hx2 hxc y hy1 hy2
          have hyc := hpre x hx1 hx2 ((segCovers_cons h tl x).mpr (Or.inr hxc)) y hy1 hy2
          rcases (segCovers_cons h tl y).mp hyc with hy | hy
          · exact absurd hy (hnoh y hy2)
          · exact hy
        obtain ⟨ihcov, ihchain, ihbounds, ihoff⟩ := ih r hne htl hsattl hpre1
        refine ⟨?_, ihchain, ihbounds, ?_⟩
        · intro x
          rw [ihcov x]
          constructor
          · rintro ⟨hrx, hseg⟩
            exact ⟨hrx, (segCovers_cons h tl x).mpr (Or.inr hseg)⟩
          · rintro ⟨hrx, hseg⟩
            rcases (segCovers_cons h tl x).mp hseg with hx | hx
            · exact absurd hx (hnoh x hrx.1)
            · exact ⟨hrx, hx⟩
        · intro bl hbl
          obtain ⟨g, hg, hcov, hoff⟩ := ihoff bl hbl
          exact ⟨g, List.mem_cons_of_mem h hg, hcov, hoff⟩
      · have hA2 : r.start < h.range.stop := Nat.lt_of_not_le hA
        have hrs : r.start < h.range.start := by
          by_contra hge
          push_neg at hge
          exact hc1 ⟨hge, hA2⟩
        have hempty : ∀ x, r.covers x → ¬ segCovers (h :: tl) x := by
          intro x hx hseg
          obtain ⟨hx1, hx2⟩ := hx
          have hstart := hpre x hx2 hx1 hseg r.start hx1 (Nat.le_refl _)
          rcases (segCovers_cons h tl r.start).mp hstart with hy | hy
          · obtain ⟨hy1, -⟩ := hy
            omega
          · obtain ⟨g, hg, hg1, -⟩ := hy
            have hgs := hhead g hg
            omega
        have hemptl : ∀ x, r.covers x → ¬ segCovers tl x := by
          intro x hx hseg
          exact hempty x hx ((segCovers_cons h tl x).mpr (Or.inr hseg))
        rw [findKcoreInner_eq_nil tl r hne hemptl]
        refine ⟨?_, by simp, by simp, by simp⟩
        intro x
        simp only [List.map_nil]
        constructor
        · intro hx
          exact absurd hx (by simp [coversList])
        · rintro ⟨hrx, hseg⟩
          exact absurd hseg (hempty x hrx)

/-- Coverage by an appended list splits into the two parts. -/
theorem coversList_append (l1 l2 : List MRange) (x : Nat) :
    coversList (l1 ++ l2) x ↔ (coversList l1 x ∨ coversList l2 x) := by
  unfold coversList
  simp [List.mem_append, or_and_right, exists_or]

/-- C8 (amended): for requested ranges R (non-empty, sorted, disjoint) and
kcore segment blocks H (sorted by range with disjoint ranges, offsets within
the u64 domain), and provided the mapped part of every requested range is an
initial segment of it (the code silently drops the part of a range that lies
beyond a gap, not only ranges entirely in a gap), the blocks emitted by
find_kcore_blocks cover exactly the intersection of the union of R with the
union of the segment ranges, in order (consecutive emitted blocks are
separated, matching the order of R), each emitted block is non-empty and
lies inside some requested range, and each block's offset is
H.offset + (block.start - H.range.start) for the segment H containing its
start. -/
theorem avml_c8_amended (R : List MRange) (H : List Block)
    (hRne : ∀ r ∈ R, r.start < r.stop)
    (hRsorted : List.Pairwise (fun a b => a.stop ≤ b.start) R)
    (hHsorted : List.Pairwise (fun g h => g.range.stop ≤ h.range.start) H)
    (hsat : ∀ h ∈ H, h.offset + h.range.stop ≤ U64MAX)
    (hpre : ∀ r ∈ R, ∀ x, x < r.stop → r.start ≤ x → segCovers H x →
      ∀ y, y ≤ x → r.start ≤ y → segCovers H y) :
    (∀ x, coversList ((find_kcore_blocks R H).map Block.range) x ↔
        (coversList R x ∧ segCovers H x)) ∧
    List.Chain' (fun a b => a.range.stop ≤ b.range.start) (find_kcore_blocks R H) ∧
    (∀ bl ∈ find_kcore_blocks R H, ∃ rr ∈ R,
      rr.start ≤ bl.range.start ∧ bl.range.stop ≤ rr.stop ∧
        bl.range.start < bl.range.stop) ∧
    (∀ bl ∈ find_kcore_blocks R H, ∃ h ∈ H, h.range.covers bl.range.start ∧
      bl.offset = h.offset + (bl.range.start - h.range.start)) := by
  induction R with
  | nil =>
    refine ⟨?_, by simp [find_kcore_blocks], by simp [find_kcore_blocks],
      by simp [find_kcore_blocks]⟩
    intro x
    simp [find_kcore_blocks, coversList]
  | cons r rs ih =>
    have hrmem : r ∈ r :: rs := List.mem_cons_self r rs
    obtain ⟨icov, ichain, ibounds, ioff⟩ :=
      findKcoreInner_spec H r (hRne r hrmem) hHsorted hsat (hpre r hrmem)
    have hrs_sorted := (List.pairwise_cons.mp hRsorted).2
    have hr_head := (List.pairwise_cons.mp hRsorted).1
    obtain ⟨rcov, rchain, rbounds, roff⟩ :=
      ih (fun q hq => hRne q (List.mem_cons_of_mem r hq)) hrs_sorted
        (fun q hq => hpre q (List.mem_cons_of_mem r hq))
    simp only [find_kcore_blocks]
    refine ⟨?_, ?_, ?_, ?_⟩
    · intro x
      rw [List.map_append, coversList_append, icov x, rcov x, coversList_cons]
      constructor
      · rintro (⟨h1, h2⟩ | ⟨h1, h2⟩)
        · exact ⟨Or.inl h1, h2⟩
        · exact ⟨Or.inr h1, h2⟩
      · rintro ⟨h1 | h1, h2⟩
        · exact Or.inl ⟨h1, h2⟩
        · exact Or.inr ⟨h1, h2⟩
    · rw [List.chain'_append]
      refine ⟨ichain, rchain, ?_⟩
      intro x hx y hy
      obtain ⟨hne', hxeq⟩ := List.mem_getLast?_eq_getLast hx
      have hxmem : x ∈ findKcoreInner r H := hxeq ▸ List.getLast_mem hne'
      have hymem : y ∈ find_kcore_blocks rs H := List.mem_of_mem_head? hy
      have hx2 := (ibounds x hxmem).2.1
      obtain ⟨rr, hrr, hy1, -, -⟩ := rbounds y hymem
      have := hr_head rr hrr
      omega
    · intro bl hbl
      rcases List.mem_append.mp hbl with hbl | hbl
      · obtain ⟨h1, h2, h3⟩ := ibounds bl hbl
        exact ⟨r, List.mem_cons_self r rs, h1, h2, h3⟩
      · obtain ⟨rr, hrr, h1, h2, h3⟩ := rbounds bl hbl
        exact ⟨rr, List.mem_cons_of_mem r hrr, h1, h2, h3⟩
    · intro bl hbl
      rcases List.mem_append.mp hbl with hbl | hbl
      · exact ioff bl hbl
      · exact roff bl hbl

/-- C8 witness: the amended claim applied to the ranges and segment headers
of the translate_ranges unit test of src/snapshot.rs. -/
theorem avml_c8_witness :
    (∀ x, coversList ((find_kcore_blocks [⟨10, 20⟩, ⟨30, 35⟩, ⟨45, 55⟩]
        [⟨0, ⟨10, 20⟩⟩, ⟨10, ⟨25, 35⟩⟩, ⟨20, ⟨40, 50⟩⟩, ⟨35, ⟨50, 55⟩⟩]).map
          Block.range) x ↔
      (coversList [⟨10, 20⟩, ⟨30, 35⟩, ⟨45, 55⟩] x ∧
        segCovers [⟨0, ⟨10, 20⟩⟩, ⟨10, ⟨25, 35⟩⟩, ⟨20, ⟨40, 50⟩⟩,
          ⟨35, ⟨50, 55⟩⟩] x)) ∧
    List.Chain' (fun a b => a.range.stop ≤ b.range.start)
      (find_kcore_blocks [⟨10, 20⟩, ⟨30, 35⟩, ⟨45, 55⟩]
        [⟨0, ⟨10, 20⟩⟩, ⟨10, ⟨25, 35⟩⟩, ⟨20, ⟨40, 50⟩⟩, ⟨35, ⟨50, 55⟩⟩]) ∧
    (∀ bl ∈ find_kcore_blocks [⟨10, 20⟩, ⟨30, 35⟩, ⟨45, 55⟩]
        [⟨0, ⟨10, 20⟩⟩, ⟨10, ⟨25, 35⟩⟩, ⟨20, ⟨40, 50⟩⟩, ⟨35, ⟨50, 55⟩⟩],
      ∃ rr ∈ [(⟨10, 20⟩ : MRange), ⟨30, 35⟩, ⟨45, 55⟩],
        rr.start ≤ bl.range.start ∧ bl.range.stop ≤ rr.stop ∧
          bl.range.start < bl.range.stop) ∧
    (∀ bl ∈ find_kcore_blocks [⟨10, 20⟩, ⟨30, 35⟩, ⟨45, 55⟩]
        [⟨0, ⟨10, 20⟩⟩, ⟨10, ⟨25, 35⟩⟩, ⟨20, ⟨40, 50⟩⟩, ⟨35, ⟨50, 55⟩⟩],
      ∃ h ∈ [(⟨0, ⟨10, 20⟩⟩ : Block), ⟨10, ⟨25, 35⟩⟩, ⟨20, ⟨40, 50⟩⟩,
          ⟨35, ⟨50, 55⟩⟩],
        h.range.covers bl.range.start ∧
        bl.offset = h.offset + (bl.range.start - h.range.start)) :=
  avml_c8_amended [⟨10, 20⟩, ⟨30, 35⟩, ⟨45, 55⟩]
    [⟨0, ⟨10, 20⟩⟩, ⟨10, ⟨25, 35⟩⟩, ⟨20, ⟨40, 50⟩⟩, ⟨35, ⟨50, 55⟩⟩]
    (by decide) (by decide) (by decide) (by decide) (by decide)

/-- The Source enum of src/snapshot.rs. -/
inductive Source where
  | devCrash
  | devMem
  | procKcore
  | raw (path : String)
deriving DecidableEq, Repr

/-- The error enum of src/snapshot.rs. -/
inductive SnapError where
  | elf
  | lockedDownKcore
  | diskUsageEstimateExceeded (estimated allowed : Nat)
  | unableToCreateMemorySnapshot
  | unableToCreateSnapshotFromSource (inner : SnapError) (src : Source)
  | unableToCreateSnapshot (reason : String)
  | other (ctx msg : String)
  | disk
deriving DecidableEq, Repr

/-- The indent helper of src/lib.rs: prefix every line with n spaces. -/
def indentStr (data : String) (n : Nat) : String :=
  String.intercalate "\n"
    ((data.splitOn "\n").map (fun line => String.mk (List.replicate n ' ') ++ line))

/-- Snapshot::create_source of src/snapshot.rs, over an abstract per-source
attempt: any failure is wrapped in unableToCreateSnapshotFromSource with the
source that produced it. -/
def create_source (attempt : Source → Except SnapError Unit) (src : Source) :
    Except SnapError Unit :=
  match attempt src with
  | .ok _ => .ok ()
  | .error e => .error (.unableToCreateSnapshotFromSource e src)

/-- Whether an error is the raw disk-budget error. -/
def isDiskUsage : SnapError → Bool
  | .diskUsageEstimateExceeded _ _ => true
  | _ => false

/-- The check of the try_method construct of src/snapshot.rs: a failure
aborts the whole fallback when it is a from-source wrapper around the
disk-budget error. -/
def isDiskUsageShortCircuit : SnapError → Bool
  | .unableToCreateSnapshotFromSource (.diskUsageEstimateExceeded _ _) _ => true
  | _ => false

/-- The source-fallback branch of Snapshot::create from src/snapshot.rs
(caller named no source, destination is not stdout): try /dev/crash, then
/proc/kcore, then /dev/mem through the try_method construct, which returns
on success, returns immediately on a disk-budget failure, and otherwise
records an indented rendering of the failure; when all three fail their
renderings are joined after an empty first line, indented, and wrapped in
unableToCreateSnapshot. The render argument abstracts the Debug formatting
of errors; the second component lists the sources attempted, in order. -/
def createFallback (render : SnapError → String)
    (attempt : Source → Except SnapError Unit) :
    Except SnapError Unit × List Source :=
  match create_source attempt .devCrash with
  | .ok _ => (.ok (), [.devCrash])
  | .error e1 =>
    if isDiskUsageShortCircuit e1 then (.error e1, [.devCrash])
    else
      match create_source attempt .procKcore with
      | .ok _ => (.ok (), [.devCrash, .procKcore])
      | .error e2 =>
        if isDiskUsageShortCircuit e2 then (.error e2, [.devCrash, .procKcore])
        else
          match create_source attempt .devMem with
          | .ok _ => (.ok (), [.devCrash, .procKcore, .devMem])
          | .error e3 =>
            if isDiskUsageShortCircuit e3 then
              (.error e3, [.devCrash, .procKcore, .devMem])
            else
              (.error (.unableToCreateSnapshot (indentStr (String.intercalate "\n"
                  ["", indentStr (render e1) 4, indentStr (render e2) 4,
                   indentStr (render e3) 4]) 4)),
               [.devCrash, .procKcore, .devMem])

/-- The short-circuit check on a wrapped error reduces to the disk-budget
check on the inner error. -/
theorem shortCircuit_wrap (e : SnapError) (s : Source) :
    isDiskUsageShortCircuit (.unableToCreateSnapshotFromSource e s) = isDiskUsage e := by
  cases e <;> rfl

/-- C9: in the source-fallback of Snapshot::create, a success stops the
search; a source failing with the disk-budget error makes the fallback
return that wrapped error immediately, without attempting any remaining
source; any other failure is recorded and the next source is tried; and
when all three sources fail without a disk-budget error the fallback
returns an aggregated unableToCreateSnapshot whose reason joins the
indented renderings of the three individual failures, after attempting
/dev/crash, /proc/kcore and /dev/mem in that order. -/
theorem avml_c9_fallback (render : SnapError → String)
    (attempt : Source → Except SnapError Unit) :
    (attempt .devCrash = .ok () →
      createFallback render attempt = (.ok (), [.devCrash])) ∧
    (∀ est alw, attempt .devCrash = .error (.diskUsageEstimateExceeded est alw) →
      createFallback render attempt =
        (.error (.unableToCreateSnapshotFromSource
          (.diskUsageEstimateExceeded est alw) .devCrash), [.devCrash])) ∧
    (∀ e1, attempt .devCrash = .error e1 → isDiskUsage e1 = false →
      attempt .procKcore = .ok () →
      createFallback render attempt = (.ok (), [.devCrash, .procKcore])) ∧
    (∀ e1 est alw, attempt .devCrash = .error e1 → isDiskUsage e1 = false →
      attempt .procKcore = .error (.diskUsageEstimateExceeded est alw) →
      createFallback render attempt =
        (.error (.unableToCreateSnapshotFromSource
          (.diskUsageEstimateExceeded est alw) .procKcore),
         [.devCrash, .procKcore])) ∧
    (∀ e1 e2, attempt .devCrash = .error e1 → isDiskUsage e1 = false →
      attempt .procKcore = .error e2 → isDiskUsage e2 = false →
      attempt .devMem = .ok () →
      createFallback render attempt =
        (.ok (), [.devCrash, .procKcore, .devMem])) ∧
    (∀ e1 e2 est alw, attempt .devCrash = .error e1 → isDiskUsage e1 = false →
      attempt .procKcore = .error e2 → isDiskUsage e2 = false →
      attempt .devMem = .error (.diskUsageEstimateExceeded est alw) →
      createFallback render attempt =
        (.error (.unableToCreateSnapshotFromSource
          (.diskUsageEstimateExceeded est alw) .devMem),
         [.devCrash, .procKcore, .devMem])) ∧
    (∀ e1 e2 e3, attempt .devCrash = .error e1 → isDiskUsage e1 = false →
      attempt .procKcore = .error e2 → isDiskUsage e2 = false →
      attempt .devMem = .error e3 → isDiskUsage e3 = false →
      createFallback render attempt =
        (.error (.unableToCreateSnapshot (indentStr (String.intercalate "\n"
            ["", indentStr (render (.unableToCreateSnapshotFromSource e1 .devCrash)) 4,
             indentStr (render (.unableToCreateSnapshotFromSource e2 .procKcore)) 4,
             indentStr (render (.unableToCreateSnapshotFromSource e3 .devMem)) 4]) 4)),
         [.devCrash, .procKcore, .devMem])) := by
  refine ⟨?_, ?_, ?_, ?_, ?_, ?_, ?_⟩
  · intro h1
    unfold createFallback create_source
    rw [h1]
  · intro est alw h1
    unfold createFallback create_source
    rw [h1]
    simp [isDiskUsageShortCircuit]
  · intro e1 h1 hd1 h2
    unfold createFallback create_source
    rw [h1, h2]
    simp [shortCircuit_wrap, hd1]
  · intro e1 est alw h1 hd1 h2
    unfold createFallback create_source
    rw [h1, h2]
    dsimp only
    rw [shortCircuit_wrap e1 Source.devCrash, hd1]
    simp [isDiskUsageShortCircuit]
  · intro e1 e2 h1 hd1 h2 hd2 h3
    unfold createFallback create_source
    rw [h1, h2, h3]
    simp [shortCircuit_wrap, hd1, hd2]
  · intro e1 e2 est alw h1 hd1 h2 hd2 h3
    unfold createFallback create_source
    rw [h1, h2, h3]
    dsimp only
    rw [shortCircuit_wrap e1 Source.devCrash, hd1,
        shortCircuit_wrap e2 Source.procKcore, hd2]
    simp [isDiskUsageShortCircuit]
  · intro e1 e2 e3 h1 hd1 h2 hd2 h3 hd3
    unfold createFallback create_source
    rw [h1, h2, h3]
    simp [shortCircuit_wrap, hd1, hd2, hd3]

/-- C9 witness: with every source failing with the disk-budget error, the
fallback returns the wrapped error from the first attempt and attempts
nothing further. -/
theorem avml_c9_witness :
    createFallback (fun _ => "e")
        (fun _ => .error (.diskUsageEstimateExceeded 7 5)) =
      (.error (.unableToCreateSnapshotFromSource
        (.diskUsageEstimateExceeded 7 5) .devCrash), [.devCrash]) :=
  (avml_c9_fallback (fun _ => "e")
    (fun _ => .error (.diskUsageEstimateExceeded 7 5))).2.1 7 5 rfl
